import Mathlib

/-!
Verification of the edit-war detection engine of the Wikipedia_Stats
repository.  The Python sources are shallowly embedded: timestamps are
rationals measured in hours (the sources divide second differences by
3600), sizes are integers, optional dictionary keys become `Option`
fields, and the revision dictionaries become structures.  Each embedded
definition mirrors one Python function:

* `detect_reverts_quick` — `detect_reverts_quick` in
  quick_edit_war_stats.py (identical body to
  `EditWarSummary.detect_reverts` in edit_war_summary.py); this is the
  canonical comment-only RevertClassifier of the specification.
* `detect_reverts_full` — `EditWarAnalyzer.detect_reverts` in
  edit_war_analyzer.py (the stricter size-gated call site).
* `group_reverts_by_time` — `EditWarAnalyzer._group_reverts_by_time`.
* `analyze_edit_war_group` — `EditWarAnalyzer._analyze_edit_war_group`.
* `analyze_editor_participation` —
  `EditWarAnalyzer._analyze_editor_participation`.
* `detect_three_revert_violations` —
  `EditWarAnalyzer._detect_three_revert_violations`.
* `EditWarSummary_detect_reverts_raw` — the same classifier applied to
  raw dictionaries in which every key may be absent, with `Except`
  modelling a Python KeyError.
-/

namespace WikipediaStats

/-- One revision record as delivered to the engine.  `timestamp` is in
hours; the remaining fields model the optional dictionary keys
(`user`, `comment`, `size`, `revid`, `parentid`). -/
structure Revision where
  timestamp : ℚ
  user : Option String := none
  comment : Option String := none
  size : Option ℤ := none
  revid : Option ℕ := none
  parentid : Option ℕ := none
  deriving DecidableEq, Inhabited

/-- A revert record produced by the classifiers.  The analyzer variant
additionally fills `revid`, `parentid` and `reverted_to_size`. -/
structure RevertEvent where
  timestamp : ℚ
  user : String
  comment : String
  size : ℤ
  revid : Option ℕ := none
  parentid : Option ℕ := none
  reverted_to_size : Option ℤ := none
  deriving DecidableEq, Inhabited

/-- Python `rev.get('user', 'Anonymous')`. -/
def userOf (r : Revision) : String := (r.user).getD "Anonymous"

/-- Python `rev.get('comment', '')`. -/
def commentOf (r : Revision) : String := (r.comment).getD ""

/-- Python list/str prefix test: `pat` is a prefix of `text`. -/
def charsHavePre : List Char → List Char → Bool
  | [], _ => true
  | _ :: _, [] => false
  | p :: ps, c :: cs => p == c && charsHavePre ps cs

/-- Python substring test `pat in text` on exploded strings. -/
def charsHaveSub : List Char → List Char → Bool
  | pat, [] => charsHavePre pat []
  | pat, c :: cs => charsHavePre pat (c :: cs) || charsHaveSub pat cs

/-- Python `.lower()` of a string, as a character list. -/
def lowerChars (s : String) : List Char := s.toList.map Char.toLower

/-- Comment heuristic shared by all call sites: lower-case the comment
and test whether any indicator occurs as a substring. -/
def commentMatches (inds : List String) (c : String) : Bool :=
  inds.any (fun ind => charsHaveSub ind.toList (lowerChars c))

/-- The six indicator substrings of the comment-only call sites
(quick_edit_war_stats.py line 60, edit_war_summary.py line 81). -/
def revert_indicators : List String :=
  ["revert", "undo", "rv", "rollback", "restore", "reverted"]

/-- The five indicator substrings of edit_war_analyzer.py line 98. -/
def revert_indicators_analyzer : List String :=
  ["revert", "undo", "rv", "rollback", "restore"]

/-- The revert record built by the comment-only classifiers
(quick_edit_war_stats.py lines 63-68, edit_war_summary.py lines 84-89). -/
def mkQuickRevert (r : Revision) : RevertEvent :=
  { timestamp := r.timestamp
    user := userOf r
    comment := commentOf r
    size := (r.size).getD 0 }

/-- Body of the `for i in range(1, len(revisions))` loop of the
comment-only classifiers: keep every later revision whose comment
matches. -/
def detect_reverts_tail (rest : List Revision) : List RevertEvent :=
  rest.filterMap (fun r =>
    if commentMatches revert_indicators (commentOf r) then some (mkQuickRevert r) else none)

/-- `detect_reverts_quick` from quick_edit_war_stats.py lines 50-70:
the first revision is never examined, every subsequent revision is kept
exactly when its lower-cased comment contains an indicator. -/
def detect_reverts_quick : List Revision → List RevertEvent
  | [] => []
  | _ :: rest => detect_reverts_tail rest

/-- `EditWarSummary.detect_reverts` from edit_war_summary.py lines
71-91; its loop body is character-for-character the one of
`detect_reverts_quick`. -/
def EditWarSummary_detect_reverts : List Revision → List RevertEvent
  | [] => []
  | _ :: rest => detect_reverts_tail rest

/-- Size-ratio gate of edit_war_analyzer.py lines 90-95:
`abs(size_i - size_prev) / max(size_i, 1) < 0.1`, only applicable when
both revisions carry a size. -/
def sizeRatioSmall (prev r : Revision) : Bool :=
  match r.size, prev.size with
  | some sc, some sp => decide ((|sc - sp| : ℚ) / max (sc : ℚ) 1 < 1 / 10)
  | _, _ => false

/-- Revert record of edit_war_analyzer.py lines 103-111 (also copies
`revid`, `parentid` and the predecessor size). -/
def mkFullRevert (prev r : Revision) : RevertEvent :=
  { timestamp := r.timestamp
    user := userOf r
    comment := commentOf r
    size := (r.size).getD 0
    revid := r.revid
    parentid := r.parentid
    reverted_to_size := prev.size }

/-- Loop of `EditWarAnalyzer.detect_reverts`: a revision is kept only
when the size gate holds and the comment matches the five indicators. -/
def detectFullGo (prev : Revision) : List Revision → List RevertEvent
  | [] => []
  | r :: rest =>
    if sizeRatioSmall prev r && commentMatches revert_indicators_analyzer (commentOf r) then
      mkFullRevert prev r :: detectFullGo r rest
    else detectFullGo r rest

/-- `EditWarAnalyzer.detect_reverts` from edit_war_analyzer.py lines
81-113. -/
def detect_reverts_full : List Revision → List RevertEvent
  | [] => []
  | r :: rest => detectFullGo r rest

/-- Hour gap between two revert events (the sources divide a second
difference by 3600; our timestamps are already in hours). -/
def gapHours (a b : RevertEvent) : ℚ := b.timestamp - a.timestamp

/-- Loop of `EditWarAnalyzer._group_reverts_by_time` (edit_war_analyzer.py
lines 165-179): `prev` is the previously processed revert, `cur` the
open group.  A gap `≤ w` extends the open group; otherwise the open
group is emitted when it has at least `m` members and a fresh group is
started. -/
def groupLoop (w : ℚ) (m : ℕ) (prev : RevertEvent) (cur : List RevertEvent) :
    List RevertEvent → List (List RevertEvent)
  | [] => if m ≤ cur.length then [cur] else []
  | r :: rest =>
    if gapHours prev r ≤ w then groupLoop w m r (cur ++ [r]) rest
    else (if m ≤ cur.length then [cur] else []) ++ groupLoop w m r [r] rest

/-- `EditWarAnalyzer._group_reverts_by_time` from edit_war_analyzer.py
lines 157-181, parametrised by the configured `time_window_hours` and
`revert_threshold` (defaults 24 and 3; the duplicates in
quick_edit_war_stats.py lines 89-103 and edit_war_summary.py lines
110-124 hard-code those defaults). -/
def group_reverts_by_time (w : ℚ) (m : ℕ) : List RevertEvent → List (List RevertEvent)
  | [] => []
  | r :: rest => groupLoop w m r [r] rest

/-- Second, spec-facing definition for the grouper, following the
specification text of section 4.2: split the revert sequence into
maximal runs whose consecutive gaps are at most the window (loop part,
no size filtering). -/
def splitLoop (w : ℚ) (prev : RevertEvent) (cur : List RevertEvent) :
    List RevertEvent → List (List RevertEvent)
  | [] => [cur]
  | r :: rest =>
    if gapHours prev r ≤ w then splitLoop w r (cur ++ [r]) rest
    else cur :: splitLoop w r [r] rest

/-- Spec-facing splitting of a revert sequence into the maximal runs of
section 4.2; the grouper must equal this split followed by the
minimum-size filter. -/
def splitByGapSpec (w : ℚ) : List RevertEvent → List (List RevertEvent)
  | [] => []
  | r :: rest => splitLoop w r [r] rest

/-- First-occurrence deduplication of a string list, mirroring the
insertion order of a Python `Counter`/`defaultdict` built by a
left-to-right scan; `seen` collects keys already produced. -/
def dedupStringsAux (seen : List String) : List String → List String
  | [] => []
  | s :: rest =>
    if s ∈ seen then dedupStringsAux seen rest
    else s :: dedupStringsAux (s :: seen) rest

/-- Distinct strings of a list, in order of first occurrence. -/
def dedupStrings (l : List String) : List String := dedupStringsAux [] l

/-- The distinct editors of a revision history, in the insertion order
of the Python dictionaries keyed by `rev.get('user', 'Anonymous')`. -/
def distinctUsers (revs : List Revision) : List String :=
  dedupStrings (revs.map userOf)

/-- Number of revisions by editor `u` (the `editor_edits` Counter of
edit_war_analyzer.py lines 216-221). -/
def countEditsOf (revs : List Revision) (u : String) : ℕ :=
  (revs.filter (fun r => userOf r == u)).length

/-- Number of revert events by editor `u` (the `editor_reverts` Counter
of edit_war_analyzer.py lines 223-225, read back with default 0). -/
def countRevertsOf (rvts : List RevertEvent) (u : String) : ℕ :=
  (rvts.filter (fun v => v.user == u)).length

/-- Experience tier of edit_war_analyzer.py line 232. -/
def experienceLevel (n : ℕ) : String :=
  if n < 10 then "new" else if n < 100 then "intermediate" else "veteran"

/-- Per-editor record of edit_war_analyzer.py lines 233-238. -/
structure EditorStats where
  total_edits : ℕ
  reverts : ℕ
  experience_level : String
  edit_percentage : ℚ
  deriving DecidableEq, Inhabited

/-- Result record of `EditWarAnalyzer._analyze_editor_participation`
(edit_war_analyzer.py lines 240-246). -/
structure ParticipationResult where
  total_editors : ℕ
  editor_breakdown : List (String × EditorStats)
  new_editors : ℕ
  intermediate_editors : ℕ
  veteran_editors : ℕ
  deriving DecidableEq, Inhabited

/-- The per-editor record built for editor `u`; `total` is
`sum(editor_edits.values())`. -/
def mkEditorStats (revs : List Revision) (rvts : List RevertEvent) (total : ℕ)
    (u : String) : EditorStats :=
  { total_edits := countEditsOf revs u
    reverts := countRevertsOf rvts u
    experience_level := experienceLevel (countEditsOf revs u)
    edit_percentage :=
      if 0 < total then (countEditsOf revs u : ℚ) / (total : ℚ) * 100 else 0 }

/-- `EditWarAnalyzer._analyze_editor_participation` from
edit_war_analyzer.py lines 213-246. -/
def analyze_editor_participation (revs : List Revision) (rvts : List RevertEvent) :
    ParticipationResult :=
  let users := distinctUsers revs
  let total := (users.map (countEditsOf revs)).sum
  let breakdown := users.map (fun u => (u, mkEditorStats revs rvts total u))
  { total_editors := users.length
    editor_breakdown := breakdown
    new_editors := (breakdown.filter (fun e => e.2.experience_level == "new")).length
    intermediate_editors :=
      (breakdown.filter (fun e => e.2.experience_level == "intermediate")).length
    veteran_editors := (breakdown.filter (fun e => e.2.experience_level == "veteran")).length }

/-- Inter-revert intervals in minutes (edit_war_analyzer.py lines
193-198): gaps between consecutive members, hours times 60. -/
def intervalsOf (g : List RevertEvent) : List ℚ :=
  (g.zip g.tail).map (fun p => (p.2.timestamp - p.1.timestamp) * 60)

/-- `np.mean` over a list of rationals. -/
def npMean (l : List ℚ) : ℚ := l.sum / (l.length : ℚ)

/-- `np.median`: sort, middle element for odd length, average of the two
middle elements for even length. -/
def npMedian (l : List ℚ) : ℚ :=
  let s := l.insertionSort (· ≤ ·)
  if l.length % 2 = 1 then s.getD (l.length / 2) 0
  else (s.getD (l.length / 2 - 1) 0 + s.getD (l.length / 2) 0) / 2

/-- Python `min` over a nonempty list (0 for the empty list, which the
source never reaches thanks to its `if intervals else 0` guard). -/
def listMinQ : List ℚ → ℚ
  | [] => 0
  | a :: rest => rest.foldl min a

/-- Python `max` over a nonempty list, same convention. -/
def listMaxQ : List ℚ → ℚ
  | [] => 0
  | a :: rest => rest.foldl max a

/-- Result record of `EditWarAnalyzer._analyze_edit_war_group`
(edit_war_analyzer.py lines 200-211). -/
structure EditWarGroupStats where
  start_time : ℚ
  end_time : ℚ
  duration_hours : ℚ
  revert_count : ℕ
  unique_editors : ℕ
  editors : List String
  avg_interval_minutes : ℚ
  median_interval_minutes : ℚ
  min_interval_minutes : ℚ
  max_interval_minutes : ℚ
  deriving DecidableEq, Inhabited

/-- `EditWarAnalyzer._analyze_edit_war_group` from edit_war_analyzer.py
lines 183-211.  The source indexes `revert_group[0]` and
`revert_group[-1]`, which presumes a nonempty group; the empty list is
mapped to `none` (a Python IndexError). -/
def analyze_edit_war_group : List RevertEvent → Option EditWarGroupStats
  | [] => none
  | e :: rest =>
    let g := e :: rest
    let lastE := rest.getLastD e
    let intervals := intervalsOf g
    some
      { start_time := e.timestamp
        end_time := lastE.timestamp
        duration_hours := lastE.timestamp - e.timestamp
        revert_count := g.length
        unique_editors := (dedupStrings (g.map (fun v => v.user))).length
        editors := dedupStrings (g.map (fun v => v.user))
        avg_interval_minutes := if intervals.isEmpty then 0 else npMean intervals
        median_interval_minutes := if intervals.isEmpty then 0 else npMedian intervals
        min_interval_minutes := if intervals.isEmpty then 0 else listMinQ intervals
        max_interval_minutes := if intervals.isEmpty then 0 else listMaxQ intervals }

/-- Violation record of edit_war_analyzer.py lines 278-283. -/
structure ThreeRevertViolation where
  user : String
  timestamp : ℚ
  revert_count : ℕ
  time_window_hours : ℚ
  deriving DecidableEq, Inhabited

/-- Size test of edit_war_analyzer.py lines 272-274: both revisions
carry a size and the absolute delta is below 100 bytes. -/
def smallDelta (prev r : Revision) : Bool :=
  match prev.size, r.size with
  | some sp, some sc => decide (|sc - sp| < 100)
  | _, _ => false

/-- Hour gap between two revisions. -/
def gapH (a b : Revision) : ℚ := b.timestamp - a.timestamp

/-- Inner loop of `_detect_three_revert_violations` (edit_war_analyzer.py
lines 264-284) for one editor: `c` is the running `revert_count`, which
is incremented before the `time_diff <= 24 and revert_count >= 3` test
and never reset; the first hit emits the violation and stops. -/
def scanLoop (u : String) (c : ℕ) (prev : Revision) :
    List Revision → Option ThreeRevertViolation
  | [] => none
  | r :: rest =>
    let c' := if smallDelta prev r then c + 1 else c
    if gapH prev r ≤ 24 ∧ 3 ≤ c' then
      some { user := u, timestamp := r.timestamp, revert_count := c'
             time_window_hours := gapH prev r }
    else scanLoop u c' r rest

/-- Per-editor scan: editors with fewer than 4 revisions are skipped
(edit_war_analyzer.py line 260). -/
def scanUser (u : String) (l : List Revision) : Option ThreeRevertViolation :=
  if 4 ≤ l.length then
    match l with
    | [] => none
    | r :: rest => scanLoop u 0 r rest
  else none

/-- Python's stable `user_revs.sort(key=lambda x: x['timestamp'])`. -/
def sortByTimestamp (l : List Revision) : List Revision :=
  l.insertionSort (fun a b => a.timestamp ≤ b.timestamp)

/-- `EditWarAnalyzer._detect_three_revert_violations` from
edit_war_analyzer.py lines 248-286: partition the revisions by editor
(insertion order), sort each partition by timestamp, scan each editor
once. -/
def detect_three_revert_violations (revs : List Revision) : List ThreeRevertViolation :=
  (distinctUsers revs).filterMap (fun u =>
    scanUser u (sortByTimestamp (revs.filter (fun r => userOf r == u))))

/-- Second, spec-facing definition of the RevertClassifier following
the words of specification section 4.1: a Revision at index `i > 0` is
classified as a revert exactly when its lower-cased comment contains
one of the six indicator substrings; no size condition participates. -/
def revertClassifierSpec (revs : List Revision) : List RevertEvent :=
  (List.range revs.length).filterMap (fun i =>
    if i = 0 then none
    else if commentMatches revert_indicators (commentOf (revs.getD i default)) then
      some (mkQuickRevert (revs.getD i default))
    else none)

/-- Consecutive revision pairs of an editor's partition. -/
def pairList (l : List Revision) : List (Revision × Revision) := l.zip l.tail

/-- Running counter after processing pair `k`, offset by `c`: `c` plus
the number of small-delta pairs among the first `k + 1` pairs.  The
counter never resets, so it counts over the whole partition. -/
def cntUpTo (c : ℕ) (ps : List (Revision × Revision)) (k : ℕ) : ℕ :=
  c + (ps.take (k + 1)).countP (fun p => smallDelta p.1 p.2)

/-- Qualification of pair `k` in the spec reading of section 4.5: the
gap of pair `k` is at most 24 hours and the running counter has reached
3. -/
def qualAt (c : ℕ) (ps : List (Revision × Revision)) (k : ℕ) : Bool :=
  decide (gapH (ps.getD k default).1 (ps.getD k default).2 ≤ 24) &&
    decide (3 ≤ cntUpTo c ps k)

/-- Violation record announced for pair `k`: the current revision's
timestamp, the running counter value and the gap of that pair. -/
def violAt (u : String) (c : ℕ) (ps : List (Revision × Revision)) (k : ℕ) :
    ThreeRevertViolation :=
  { user := u
    timestamp := (ps.getD k default).2.timestamp
    revert_count := cntUpTo c ps k
    time_window_hours := gapH (ps.getD k default).1 (ps.getD k default).2 }

/-- Spec-facing reading of the per-editor scan of section 4.5: the
violation announced at the first qualifying pair, if any. -/
def firstViolationSpec (u : String) (l : List Revision) : Option ThreeRevertViolation :=
  ((List.range (pairList l).length).find? (qualAt 0 (pairList l))).map
    (violAt u 0 (pairList l))

/-- A raw revision dictionary in which every key, the timestamp
included, may be absent. -/
structure RawRevision where
  timestamp : Option ℚ := none
  user : Option String := none
  comment : Option String := none
  size : Option ℤ := none
  revid : Option ℕ := none
  parentid : Option ℕ := none
  deriving DecidableEq, Inhabited

/-- Comment heuristic on a raw revision: a missing comment is read as
the empty string (`rev.get('comment', '')`). -/
def rawMatches (r : RawRevision) : Bool :=
  commentMatches revert_indicators ((r.comment).getD "")

/-- Revert record built from a raw revision once its timestamp is
known. -/
def rawEvent (t : ℚ) (r : RawRevision) : RevertEvent :=
  { timestamp := t
    user := (r.user).getD "Anonymous"
    comment := (r.comment).getD ""
    size := (r.size).getD 0 }

/-- Loop of `EditWarSummary.detect_reverts` over raw dictionaries: a
matching revision reads `current_rev['timestamp']` directly, so a
missing timestamp there raises a KeyError, modelled as `Except.error`;
non-matching revisions never touch the timestamp. -/
def rawDetectGo : List RawRevision → Except String (List RevertEvent)
  | [] => .ok []
  | r :: rest =>
    if rawMatches r then
      match r.timestamp with
      | none => .error "KeyError: timestamp"
      | some t => (rawDetectGo rest).map (fun evs => rawEvent t r :: evs)
    else rawDetectGo rest

/-- `EditWarSummary.detect_reverts` (edit_war_summary.py lines 71-91)
over raw dictionaries with every key optional. -/
def EditWarSummary_detect_reverts_raw : List RawRevision → Except String (List RevertEvent)
  | [] => .ok []
  | _ :: rest => rawDetectGo rest

/-- Events used by witnesses: a 0h revert with a matching comment. -/
def demoEvent : RevertEvent := { timestamp := 0, user := "A", comment := "rv", size := 0 }

/-- A second witness event one hour later. -/
def demoEvent2 : RevertEvent := { timestamp := 1, user := "B", comment := "undo", size := 0 }

lemma range_filterMap_getD {α β : Type} [Inhabited α] (f : α → Option β) :
    ∀ l : List α, (List.range l.length).filterMap (fun i => f (l.getD i default)) = l.filterMap f := by
  intro l
  induction l with
  | nil => simp
  | cons a l ih =>
    rw [List.length_cons, List.range_succ_eq_map, List.filterMap_cons]
    simp only [List.getD_cons_zero, List.filterMap_map, Function.comp_def, Nat.succ_eq_add_one,
      List.getD_cons_succ]
    rw [List.filterMap_cons]
    cases f a <;> simp only [List.getD_eq_getElem?_getD] at ih ⊢ <;> simp [ih]

lemma detect_tail_eq_spec (a : Revision) (rest : List Revision) :
    detect_reverts_tail rest = revertClassifierSpec (a :: rest) := by
  unfold revertClassifierSpec
  rw [List.length_cons, List.range_succ_eq_map, List.filterMap_cons]
  simp only [if_pos rfl, List.filterMap_map, Function.comp_def, Nat.succ_eq_add_one,
    Nat.add_eq_zero, one_ne_zero, and_false, if_false, List.getD_cons_succ]
  exact (range_filterMap_getD _ rest).symm

/-- Claim C1: the canonical RevertClassifier classifies a revision at
index i > 0 as a revert exactly when its lower-cased comment contains
one of the six fixed indicator substrings; the size heuristic is not
consulted, so the classification is unchanged under any size value. -/
theorem revert_classifier_comment_only (revs : List Revision) :
    detect_reverts_quick revs = revertClassifierSpec revs ∧
    EditWarSummary_detect_reverts revs = revertClassifierSpec revs ∧
    ∀ (r : Revision) (z : Option ℤ),
      commentMatches revert_indicators (commentOf { r with size := z }) =
        commentMatches revert_indicators (commentOf r) := by
  refine ⟨?_, ?_, fun r z => rfl⟩ <;>
    cases revs with
    | nil => rfl
    | cons a rest => exact detect_tail_eq_spec a rest

lemma groupLoop_eq_filter (w : ℚ) (m : ℕ) :
    ∀ (rest : List RevertEvent) (prev : RevertEvent) (cur : List RevertEvent),
      groupLoop w m prev cur rest
        = (splitLoop w prev cur rest).filter (fun g => m ≤ g.length) := by
  intro rest
  induction rest with
  | nil =>
    intro prev cur
    by_cases h : m ≤ cur.length <;> simp [groupLoop, splitLoop, h]
  | cons r rs ih =>
    intro prev cur
    by_cases hgap : gapHours prev r ≤ w
    · simp [groupLoop, splitLoop, hgap, ih]
    · by_cases h : m ≤ cur.length <;> simp [groupLoop, splitLoop, hgap, h, ih]

lemma group_eq_filter_split (w : ℚ) (m : ℕ) (l : List RevertEvent) :
    group_reverts_by_time w m l = (splitByGapSpec w l).filter (fun g => m ≤ g.length) := by
  cases l with
  | nil => rfl
  | cons a rest => exact groupLoop_eq_filter w m rest a [a]

lemma splitLoop_flatten (w : ℚ) :
    ∀ (rest : List RevertEvent) (prev : RevertEvent) (cur : List RevertEvent),
      (splitLoop w prev cur rest).flatten = cur ++ rest := by
  intro rest
  induction rest with
  | nil => intro prev cur; simp [splitLoop]
  | cons r rs ih =>
    intro prev cur
    by_cases hgap : gapHours prev r ≤ w <;> simp [splitLoop, hgap, ih]

lemma length_le_flatten {α : Type} (L : List (List α)) (g : List α) (h : g ∈ L) :
    g.length ≤ L.flatten.length := by
  rw [List.length_flatten]
  exact List.single_le_sum (fun x _ => Nat.zero_le x) _ (List.mem_map_of_mem _ h)

lemma mem_splitByGap_length (w : ℚ) (l : List RevertEvent) (g : List RevertEvent)
    (h : g ∈ splitByGapSpec w l) : g.length ≤ l.length := by
  cases l with
  | nil => simp [splitByGapSpec] at h
  | cons a rest =>
    have hle := length_le_flatten _ g h
    simp only [splitByGapSpec] at hle
    rwa [splitLoop_flatten w rest a [a]] at hle

/-- Claim C2: every emitted group has at least `min_reverts` members;
the empty input gives the empty output, and an input with fewer than
`min_reverts` reverts in total gives the empty output whatever the
timing. -/
theorem episode_min_size_invariant (w : ℚ) (m : ℕ) (l : List RevertEvent) :
    (∀ g ∈ group_reverts_by_time w m l, m ≤ g.length) ∧
    group_reverts_by_time w m [] = [] ∧
    (l.length < m → group_reverts_by_time w m l = []) := by
  refine ⟨?_, rfl, ?_⟩
  · intro g hg
    rw [group_eq_filter_split] at hg
    have := (List.mem_filter.mp hg).2
    simpa using this
  · intro hlen
    rw [group_eq_filter_split]
    rw [List.eq_nil_iff_forall_not_mem]
    intro g hg
    rcases List.mem_filter.mp hg with ⟨hmem, hsize⟩
    have h1 : m ≤ g.length := by simpa using hsize
    have h2 : g.length ≤ l.length := mem_splitByGap_length w l g hmem
    omega

/-- Witness for claim C2 at a concrete input: a single revert with a
threshold of 3 produces no episode. -/
theorem episode_min_size_invariant_witness :
    group_reverts_by_time 24 3 [demoEvent] = [] :=
  (episode_min_size_invariant 24 3 [demoEvent]).2.2 (by norm_num)

lemma splitLoop_chain (w : ℚ) :
    ∀ (rest : List RevertEvent) (prev : RevertEvent) (cur : List RevertEvent),
      cur.getLast? = some prev → List.Chain' (fun a b => gapHours a b ≤ w) cur →
      ∀ g ∈ splitLoop w prev cur rest, List.Chain' (fun a b => gapHours a b ≤ w) g := by
  intro rest
  induction rest with
  | nil =>
    intro prev cur hlast hch g hg
    simp only [splitLoop, List.mem_singleton] at hg
    exact hg ▸ hch
  | cons r rs ih =>
    intro prev cur hlast hch g hg
    by_cases hgap : gapHours prev r ≤ w
    · simp only [splitLoop, if_pos hgap] at hg
      refine ih r (cur ++ [r]) (by simp [List.getLast?_concat]) ?_ g hg
      rw [List.chain'_append]
      refine ⟨hch, List.chain'_singleton r, ?_⟩
      intro x hx y hy
      rw [hlast] at hx
      simp only [Option.mem_def, Option.some.injEq] at hx
      simp only [List.head?_cons, Option.mem_def, Option.some.injEq] at hy
      subst hx; subst hy
      exact hgap
    · simp only [splitLoop, if_neg hgap, List.mem_cons] at hg
      rcases hg with h1 | h2
      · exact h1 ▸ hch
      · exact ih r [r] rfl (List.chain'_singleton r) g h2

lemma splitLoop_head_extends (w : ℚ) :
    ∀ (rest : List RevertEvent) (prev : RevertEvent) (cur : List RevertEvent),
      ∃ t rs, splitLoop w prev cur rest = (cur ++ t) :: rs := by
  intro rest
  induction rest with
  | nil => intro prev cur; exact ⟨[], [], by simp [splitLoop]⟩
  | cons r rs ih =>
    intro prev cur
    by_cases hgap : gapHours prev r ≤ w
    · obtain ⟨t, ls, h⟩ := ih r (cur ++ [r])
      exact ⟨r :: t, ls, by simp only [splitLoop, if_pos hgap, h, List.append_assoc,
        List.singleton_append]⟩
    · exact ⟨[], splitLoop w r [r] rs, by simp [splitLoop, hgap]⟩

lemma splitLoop_boundary (w : ℚ) :
    ∀ (rest : List RevertEvent) (prev : RevertEvent) (cur : List RevertEvent),
      cur.getLast? = some prev →
      List.Chain' (fun g1 g2 => ∀ a ∈ g1.getLast?, ∀ b ∈ g2.head?, w < gapHours a b)
        (splitLoop w prev cur rest) := by
  intro rest
  induction rest with
  | nil => intro prev cur hlast; simp [splitLoop]
  | cons r rs ih =>
    intro prev cur hlast
    by_cases hgap : gapHours prev r ≤ w
    · simpa [splitLoop, hgap] using ih r (cur ++ [r]) (by simp [List.getLast?_concat])
    · simp only [splitLoop, if_neg hgap]
      rw [List.chain'_cons']
      refine ⟨?_, ih r [r] rfl⟩
      intro g2 hg2 a ha b hb
      obtain ⟨t, ls, hsplit⟩ := splitLoop_head_extends w rs r [r]
      rw [hsplit] at hg2
      simp only [List.head?_cons, Option.mem_def, Option.some.injEq] at hg2
      subst hg2
      simp only [List.singleton_append, List.head?_cons, Option.mem_def,
        Option.some.injEq] at hb
      rw [hlast] at ha
      simp only [Option.mem_def, Option.some.injEq] at ha
      subst ha; subst hb
      exact not_le.mp hgap

/-- Claim C3: within every emitted episode consecutive members are at
most `window_hours` apart (inclusive comparison against the previous
event), and grouping is maximal: the grouper equals the maximal-run
split followed by the size filter, the split partitions the input, and
consecutive runs of the split are separated by gaps strictly above the
window. -/
theorem episode_grouping_maximal (w : ℚ) (m : ℕ) (l : List RevertEvent) :
    (∀ g ∈ group_reverts_by_time w m l, List.Chain' (fun a b => gapHours a b ≤ w) g) ∧
    group_reverts_by_time w m l = (splitByGapSpec w l).filter (fun g => m ≤ g.length) ∧
    (splitByGapSpec w l).flatten = l ∧
    List.Chain' (fun g1 g2 => ∀ a ∈ g1.getLast?, ∀ b ∈ g2.head?, w < gapHours a b)
      (splitByGapSpec w l) := by
  refine ⟨?_, group_eq_filter_split w m l, ?_, ?_⟩
  · intro g hg
    rw [group_eq_filter_split] at hg
    have hmem := (List.mem_filter.mp hg).1
    cases l with
    | nil => simp [splitByGapSpec] at hmem
    | cons a rest =>
      exact splitLoop_chain w rest a [a] rfl (List.chain'_singleton a) g hmem
  · cases l with
    | nil => rfl
    | cons a rest => simpa using splitLoop_flatten w rest a [a]
  · cases l with
    | nil => simp [splitByGapSpec]
    | cons a rest => exact splitLoop_boundary w rest a [a] rfl

/-- Witness for claim C3 at a concrete input: the single episode built
from two reverts one hour apart satisfies the gap chain. -/
theorem episode_grouping_maximal_witness :
    List.Chain' (fun a b => gapHours a b ≤ 24) [demoEvent, demoEvent2] := by
  refine (episode_grouping_maximal 24 1 [demoEvent, demoEvent2]).1 [demoEvent, demoEvent2] ?_
  simp only [group_reverts_by_time, groupLoop, gapHours, demoEvent, demoEvent2]
  norm_num

/-- A one-revision history by editor A, used by witnesses. -/
def demoRevs : List Revision := [{ timestamp := 0, user := some "A" }]

lemma dedupStringsAux_mem :
    ∀ (l : List String) (seen : List String) (u : String),
      u ∈ dedupStringsAux seen l ↔ u ∉ seen ∧ u ∈ l := by
  intro l
  induction l with
  | nil => simp [dedupStringsAux]
  | cons s rest ih =>
    intro seen u
    by_cases hs : s ∈ seen
    · rw [dedupStringsAux, if_pos hs, ih, List.mem_cons]
      constructor
      · rintro ⟨h1, h2⟩; exact ⟨h1, Or.inr h2⟩
      · rintro ⟨h1, h2 | h3⟩
        · exact absurd (h2 ▸ hs) h1
        · exact ⟨h1, h3⟩
    · rw [dedupStringsAux, if_neg hs]
      simp only [List.mem_cons, ih]
      constructor
      · rintro (rfl | ⟨h1, h2⟩)
        · exact ⟨hs, Or.inl rfl⟩
        · exact ⟨fun hu => h1 (Or.inr hu), Or.inr h2⟩
      · rintro ⟨h1, rfl | h2⟩
        · exact Or.inl rfl
        · by_cases hus : u = s
          · exact Or.inl hus
          · exact Or.inr ⟨fun h => h.elim hus h1, h2⟩

lemma dedupStringsAux_nodup :
    ∀ (l : List String) (seen : List String), (dedupStringsAux seen l).Nodup := by
  intro l
  induction l with
  | nil => intro seen; simp [dedupStringsAux]
  | cons s rest ih =>
    intro seen
    by_cases hs : s ∈ seen
    · rw [dedupStringsAux, if_pos hs]; exact ih seen
    · rw [dedupStringsAux, if_neg hs]
      refine List.nodup_cons.mpr ⟨?_, ih (s :: seen)⟩
      intro hmem
      exact ((dedupStringsAux_mem rest (s :: seen) s).mp hmem).1 (List.mem_cons_self s seen)

lemma distinctUsers_nodup (revs : List Revision) : (distinctUsers revs).Nodup :=
  dedupStringsAux_nodup (revs.map userOf) []

lemma distinctUsers_mem (revs : List Revision) (u : String) :
    u ∈ distinctUsers revs ↔ ∃ r ∈ revs, userOf r = u := by
  unfold distinctUsers dedupStrings
  rw [dedupStringsAux_mem]
  simp [List.mem_map]

lemma distinctUsers_cover (revs : List Revision) :
    ∀ r ∈ revs, userOf r ∈ distinctUsers revs := by
  intro r hr
  exact (distinctUsers_mem revs (userOf r)).mpr ⟨r, hr, rfl⟩

lemma length_filter_split {α : Type} (p : α → Bool) (l : List α) :
    (l.filter p).length + (l.filter (fun a => !(p a))).length = l.length := by
  induction l with
  | nil => simp
  | cons a l ih => cases h : p a <;> simp [List.filter_cons, h] <;> omega

lemma sum_counts :
    ∀ (us : List String) (revs : List Revision), us.Nodup →
      (∀ r ∈ revs, userOf r ∈ us) →
      (us.map (countEditsOf revs)).sum = revs.length := by
  intro us
  induction us with
  | nil =>
    intro revs _ hcov
    have hrevs : revs = [] := by
      rw [List.eq_nil_iff_forall_not_mem]
      intro r hr
      exact absurd (hcov r hr) (List.not_mem_nil _)
    simp [hrevs]
  | cons u us ih =>
    intro revs hnd hcov
    rcases List.nodup_cons.mp hnd with ⟨hu, hnd2⟩
    have hterm : ∀ u2 ∈ us,
        countEditsOf revs u2 = countEditsOf (revs.filter (fun r => !(userOf r == u))) u2 := by
      intro u2 hu2
      unfold countEditsOf
      rw [List.filter_filter]
      congr 1
      apply List.filter_congr
      intro r _
      by_cases h : userOf r = u2
      · have hne : u2 ≠ u := fun he => hu (he ▸ hu2)
        simp [h, hne]
      · simp [h]
    have hcov2 : ∀ r ∈ revs.filter (fun r => !(userOf r == u)), userOf r ∈ us := by
      intro r hr
      rcases List.mem_filter.mp hr with ⟨hmem, hne⟩
      rcases List.mem_cons.mp (hcov r hmem) with h | h
      · simp [h] at hne
      · exact h
    calc (List.map (countEditsOf revs) (u :: us)).sum
        = countEditsOf revs u + (us.map (countEditsOf revs)).sum := by simp
      _ = countEditsOf revs u
            + (us.map (countEditsOf (revs.filter (fun r => !(userOf r == u))))).sum := by
            rw [List.map_congr_left hterm]
      _ = countEditsOf revs u + (revs.filter (fun r => !(userOf r == u))).length := by
            rw [ih _ hnd2 hcov2]
      _ = revs.length := length_filter_split _ revs

lemma sum_map_mul_right_q {α : Type} (l : List α) (f : α → ℚ) (k : ℚ) :
    (l.map (fun a => f a * k)).sum = (l.map f).sum * k := by
  induction l with
  | nil => simp
  | cons a l ih => simp [ih, add_mul]

/-- Claim C6: the per-editor edit counts sum to the number of input
revisions, and for a nonempty history the edit shares sum to exactly
100 percent. -/
theorem participation_conservation (revs : List Revision) (rvts : List RevertEvent) :
    (((analyze_editor_participation revs rvts).editor_breakdown.map
        (fun e => e.2.total_edits)).sum = revs.length) ∧
    (revs ≠ [] →
      ((analyze_editor_participation revs rvts).editor_breakdown.map
        (fun e => e.2.edit_percentage)).sum = 100) := by
  have hsum : ((distinctUsers revs).map (countEditsOf revs)).sum = revs.length :=
    sum_counts (distinctUsers revs) revs (distinctUsers_nodup revs) (distinctUsers_cover revs)
  constructor
  · simp only [analyze_editor_participation, mkEditorStats, List.map_map, Function.comp_def]
    exact hsum
  · intro hne
    have hpos : 0 < ((distinctUsers revs).map (countEditsOf revs)).sum := by
      rw [hsum]
      exact List.length_pos.mpr hne
    simp only [analyze_editor_participation, mkEditorStats, List.map_map, Function.comp_def,
      if_pos hpos]
    set T : ℕ := ((distinctUsers revs).map (countEditsOf revs)).sum with hT
    have hTne : (T : ℚ) ≠ 0 := by
      have hne0 : T ≠ 0 := Nat.pos_iff_ne_zero.mp hpos
      exact_mod_cast hne0
    have hstep : (fun u => (countEditsOf revs u : ℚ) / (T : ℚ) * 100)
        = fun u => (countEditsOf revs u : ℚ) * (100 / (T : ℚ)) := by
      funext u; ring
    rw [hstep, sum_map_mul_right_q]
    have hcast : ((distinctUsers revs).map (fun u => (countEditsOf revs u : ℚ))).sum = (T : ℚ) := by
      rw [hT]
      rw [Nat.cast_list_sum, List.map_map]
      rfl
    rw [hcast]
    field_simp

/-- Witness for claim C6 at a concrete input: a one-revision history
has edit shares summing to 100. -/
theorem participation_conservation_witness :
    ((analyze_editor_participation demoRevs []).editor_breakdown.map
      (fun e => e.2.edit_percentage)).sum = 100 :=
  (participation_conservation demoRevs []).2 (by simp [demoRevs])

lemma lookup_keyed_map (f : String → EditorStats) :
    ∀ (l : List String) (u : String) (s : EditorStats),
      (l.map (fun v => (v, f v))).lookup u = some s ↔ u ∈ l ∧ s = f u := by
  intro l
  induction l with
  | nil => simp [List.lookup]
  | cons a l ih =>
    intro u s
    by_cases h : u = a
    · subst h
      simp [List.lookup, eq_comm]
    · have hba : (u == a) = false := by simp [h]
      simp [List.lookup, hba, ih, h]

lemma experienceLevel_beq (n : ℕ) :
    ((experienceLevel n == "new") = decide (n < 10)) ∧
    ((experienceLevel n == "intermediate") = decide (10 ≤ n ∧ n < 100)) ∧
    ((experienceLevel n == "veteran") = decide (100 ≤ n)) := by
  by_cases h1 : n < 10
  · have h2 : n < 100 := by omega
    refine ⟨?_, ?_, ?_⟩ <;> simp [experienceLevel, h1, h2] <;> omega
  · by_cases h2 : n < 100
    · refine ⟨?_, ?_, ?_⟩ <;> simp [experienceLevel, h1, h2] <;> omega
    · refine ⟨?_, ?_, ?_⟩ <;> simp [experienceLevel, h1, h2] <;> omega

/-- Claim C7: each editor's profile records the editor's revision count,
revert count, the three-tier experience level with thresholds 10 and
100, and the percentage share of the total edit count; the aggregate
counters equal the number of distinct editors in each tier. -/
theorem participation_profiles (revs : List Revision) (rvts : List RevertEvent)
    (u : String) (s : EditorStats)
    (h : (analyze_editor_participation revs rvts).editor_breakdown.lookup u = some s) :
    s.total_edits = countEditsOf revs u ∧
    s.reverts = countRevertsOf rvts u ∧
    (s.experience_level = "new" ↔ s.total_edits < 10) ∧
    (s.experience_level = "intermediate" ↔ 10 ≤ s.total_edits ∧ s.total_edits < 100) ∧
    (s.experience_level = "veteran" ↔ 100 ≤ s.total_edits) ∧
    s.edit_percentage =
      (if 0 < ((distinctUsers revs).map (countEditsOf revs)).sum then
        (countEditsOf revs u : ℚ) / (((distinctUsers revs).map (countEditsOf revs)).sum : ℚ) * 100
       else 0) ∧
    (analyze_editor_participation revs rvts).total_editors = (distinctUsers revs).length ∧
    (analyze_editor_participation revs rvts).new_editors
      = ((distinctUsers revs).filter (fun v => countEditsOf revs v < 10)).length ∧
    (analyze_editor_participation revs rvts).intermediate_editors
      = ((distinctUsers revs).filter
          (fun v => 10 ≤ countEditsOf revs v ∧ countEditsOf revs v < 100)).length ∧
    (analyze_editor_participation revs rvts).veteran_editors
      = ((distinctUsers revs).filter (fun v => 100 ≤ countEditsOf revs v)).length := by
  have hlk := (lookup_keyed_map
    (mkEditorStats revs rvts (((distinctUsers revs).map (countEditsOf revs)).sum))
    (distinctUsers revs) u s).mp (by simpa [analyze_editor_participation] using h)
  obtain ⟨-, hs⟩ := hlk
  subst hs
  have hagg : ∀ tier : String,
      (((distinctUsers revs).map (fun v =>
          (v, mkEditorStats revs rvts (((distinctUsers revs).map (countEditsOf revs)).sum) v))).filter
        (fun e => e.2.experience_level == tier)).length
      = ((distinctUsers revs).filter
          (fun v => experienceLevel (countEditsOf revs v) == tier)).length := by
    intro tier
    rw [List.filter_map, List.length_map]
    rfl
  refine ⟨rfl, rfl, ?_, ?_, ?_, rfl, rfl, ?_, ?_, ?_⟩
  · show experienceLevel (countEditsOf revs u) = "new" ↔ countEditsOf revs u < 10
    have := (experienceLevel_beq (countEditsOf revs u)).1
    constructor
    · intro he; have hb : (experienceLevel (countEditsOf revs u) == "new") = true := by
        simp [he]
      rw [this] at hb; simpa using hb
    · intro hn; have hb : decide (countEditsOf revs u < 10) = true := by simpa using hn
      rw [← this] at hb; simpa using hb
  · show experienceLevel (countEditsOf revs u) = "intermediate" ↔ _
    have := (experienceLevel_beq (countEditsOf revs u)).2.1
    constructor
    · intro he; have hb : (experienceLevel (countEditsOf revs u) == "intermediate") = true := by
        simp [he]
      rw [this] at hb; simpa using hb
    · intro hn; have hb : decide (10 ≤ countEditsOf revs u ∧ countEditsOf revs u < 100) = true := by
        simpa using hn
      rw [← this] at hb; simpa using hb
  · show experienceLevel (countEditsOf revs u) = "veteran" ↔ _
    have := (experienceLevel_beq (countEditsOf revs u)).2.2
    constructor
    · intro he; have hb : (experienceLevel (countEditsOf revs u) == "veteran") = true := by
        simp [he]
      rw [this] at hb; simpa using hb
    · intro hn; have hb : decide (100 ≤ countEditsOf revs u) = true := by simpa using hn
      rw [← this] at hb; simpa using hb
  · show (analyze_editor_participation revs rvts).new_editors = _
    simp only [analyze_editor_participation]
    rw [hagg "new"]
    congr 1
    apply List.filter_congr
    intro v _
    rw [(experienceLevel_beq (countEditsOf revs v)).1]
  · show (analyze_editor_participation revs rvts).intermediate_editors = _
    simp only [analyze_editor_participation]
    rw [hagg "intermediate"]
    congr 1
    apply List.filter_congr
    intro v _
    rw [(experienceLevel_beq (countEditsOf revs v)).2.1]
  · show (analyze_editor_participation revs rvts).veteran_editors = _
    simp only [analyze_editor_participation]
    rw [hagg "veteran"]
    congr 1
    apply List.filter_congr
    intro v _
    rw [(experienceLevel_beq (countEditsOf revs v)).2.2]

/-- Witness for claim C7 at a concrete input: the profile of editor A in
a one-revision history. -/
theorem participation_profiles_witness :
    (analyze_editor_participation demoRevs []).total_editors = (distinctUsers demoRevs).length :=
  (participation_profiles demoRevs [] "A" _ rfl).2.2.2.2.2.2.1

lemma length_filter_cons_le {α : Type} (p : α → Bool) (a : α) (l : List α) :
    (l.filter p).length ≤ ((a :: l).filter p).length := by
  cases h : p a <;> simp [List.filter_cons, h]

lemma detectFullGo_count (u : String) :
    ∀ (rest : List Revision) (prev : Revision),
      ((detectFullGo prev rest).filter (fun v => v.user == u)).length
        ≤ (rest.filter (fun r => userOf r == u)).length := by
  intro rest
  induction rest with
  | nil => intro prev; simp [detectFullGo]
  | cons r rs ih =>
    intro prev
    by_cases hc : (sizeRatioSmall prev r
        && commentMatches revert_indicators_analyzer (commentOf r)) = true
    · rw [detectFullGo, if_pos hc]
      cases hu : (userOf r == u)
      · have : ((mkFullRevert prev r).user == u) = false := hu
        simp only [List.filter_cons, this, hu, Bool.false_eq_true, if_false]
        exact le_trans (ih r) (by simp)
      · have : ((mkFullRevert prev r).user == u) = true := hu
        simp only [List.filter_cons, this, hu, if_true, List.length_cons]
        exact Nat.succ_le_succ (ih r)
    · rw [detectFullGo, if_neg hc]
      exact le_trans (ih r) (length_filter_cons_le _ r rs)

/-- Claim C10: with the revert sequence derived from the revisions by
the classifier, every editor profile satisfies
total_reverts ≤ total_edits, because the classified reverts form a
subsequence of the revisions and inherit the same editor attribution
(including the Anonymous default). -/
theorem reverts_le_edits (revs : List Revision) (u : String) (s : EditorStats)
    (h : (analyze_editor_participation revs
            (detect_reverts_full revs)).editor_breakdown.lookup u = some s) :
    s.reverts ≤ s.total_edits := by
  have hlk := (lookup_keyed_map
    (mkEditorStats revs (detect_reverts_full revs)
      (((distinctUsers revs).map (countEditsOf revs)).sum))
    (distinctUsers revs) u s).mp (by simpa [analyze_editor_participation] using h)
  obtain ⟨-, hs⟩ := hlk
  subst hs
  show countRevertsOf (detect_reverts_full revs) u ≤ countEditsOf revs u
  cases revs with
  | nil => simp [detect_reverts_full, countRevertsOf, countEditsOf]
  | cons r rest =>
    unfold countRevertsOf countEditsOf detect_reverts_full
    exact le_trans (detectFullGo_count u rest r) (length_filter_cons_le _ r rest)

/-- Witness for claim C10 at a concrete input: editor A with one
revision and no classified revert. -/
theorem reverts_le_edits_witness :
    (mkEditorStats demoRevs (detect_reverts_full demoRevs)
      (((distinctUsers demoRevs).map (countEditsOf demoRevs)).sum) "A").reverts
      ≤ (mkEditorStats demoRevs (detect_reverts_full demoRevs)
          (((distinctUsers demoRevs).map (countEditsOf demoRevs)).sum) "A").total_edits :=
  reverts_le_edits demoRevs "A" _ rfl

/-- Claim C8: the interval list of an episode has exactly one entry per
consecutive member pair, and a single-member episode yields mean,
median, min and max all equal to 0 instead of an empty-sequence or
division-by-zero failure. -/
theorem episode_statistics_safe (e : RevertEvent) (rest : List RevertEvent) :
    (intervalsOf (e :: rest)).length = (e :: rest).length - 1 ∧
    ∃ s, analyze_edit_war_group [e] = some s ∧
      s.avg_interval_minutes = 0 ∧ s.median_interval_minutes = 0 ∧
      s.min_interval_minutes = 0 ∧ s.max_interval_minutes = 0 := by
  constructor
  · simp [intervalsOf]
  · exact ⟨_, rfl, rfl, rfl, rfl, rfl⟩

lemma rawDetectGo_ok (l : List RawRevision) (hts : ∀ r ∈ l, (r.timestamp).isSome = true) :
    rawDetectGo l = .ok (l.filterMap (fun r =>
      if rawMatches r then some (rawEvent ((r.timestamp).getD 0) r) else none)) := by
  induction l with
  | nil => simp [rawDetectGo]
  | cons r rest ih =>
    have hr := hts r (List.mem_cons_self r rest)
    have hrest : ∀ x ∈ rest, (x.timestamp).isSome = true :=
      fun x hx => hts x (List.mem_cons_of_mem r hx)
    by_cases hm : rawMatches r
    · obtain ⟨t, ht⟩ := Option.isSome_iff_exists.mp hr
      simp [rawDetectGo, hm, ht, ih hrest, List.filterMap_cons, Except.map]
    · simp [rawDetectGo, hm, ih hrest, List.filterMap_cons]

lemma rawDetectGo_error (e : String) :
    ∀ l : List RawRevision, rawDetectGo l = .error e → ∃ r ∈ l, r.timestamp = none := by
  intro l
  induction l with
  | nil => intro h; simp [rawDetectGo] at h
  | cons r rest ih =>
    intro h
    by_cases hm : rawMatches r
    · cases ht : r.timestamp with
      | none => exact ⟨r, List.mem_cons_self r rest, ht⟩
      | some t =>
        rw [rawDetectGo, if_pos hm, ht] at h
        cases hrec : rawDetectGo rest with
        | error e2 =>
          have he : e2 = e := by rw [hrec] at h; simpa [Except.map] using h
          obtain ⟨x, hx, hn⟩ := ih (by rw [hrec, he])
          exact ⟨x, List.mem_cons_of_mem r hx, hn⟩
        | ok v => rw [hrec] at h; simp [Except.map] at h
    · rw [rawDetectGo, if_neg hm] at h
      obtain ⟨x, hx, hn⟩ := ih h
      exact ⟨x, List.mem_cons_of_mem r hx, hn⟩

/-- Claim C9: the classifier degrades gracefully on missing optional
fields.  When every revision carries a timestamp the result is a
success; a missing comment is read as the empty string and never
matches; the classification decision ignores the size, revision-id and
parent-id fields; an error can only arise from a missing timestamp, and
a matching revision without a timestamp is indeed rejected. -/
theorem classifier_optional_fields (revs : List RawRevision) :
    ((∀ r ∈ revs, (r.timestamp).isSome = true) →
      ∃ out, EditWarSummary_detect_reverts_raw revs = .ok out) ∧
    (∀ r : RawRevision, r.comment = none → rawMatches r = false) ∧
    (∀ (r : RawRevision) (z : Option ℤ), rawMatches { r with size := z } = rawMatches r) ∧
    (∀ (r : RawRevision) (i p : Option ℕ),
      rawMatches { r with revid := i, parentid := p } = rawMatches r) ∧
    (∀ e : String, EditWarSummary_detect_reverts_raw revs = .error e →
      ∃ r ∈ revs, r.timestamp = none) ∧
    EditWarSummary_detect_reverts_raw
      [{ timestamp := some 0 }, { comment := some "revert" }] = .error "KeyError: timestamp" := by
  refine ⟨?_, ?_, fun r z => rfl, fun r i p => rfl, ?_, ?_⟩
  · intro hts
    cases revs with
    | nil => exact ⟨[], rfl⟩
    | cons a rest =>
      exact ⟨_, rawDetectGo_ok rest (fun x hx => hts x (List.mem_cons_of_mem a hx))⟩
  · intro r h
    simp only [rawMatches, h]
    decide
  · intro e h
    cases revs with
    | nil => simp [EditWarSummary_detect_reverts_raw] at h
    | cons a rest =>
      obtain ⟨x, hx, hn⟩ := rawDetectGo_error e rest h
      exact ⟨x, List.mem_cons_of_mem a hx, hn⟩
  · rfl

/-- Witness for claim C9 at a concrete input: a revision with no
comment field never matches the comment heuristic. -/
theorem classifier_optional_fields_witness : rawMatches {} = false :=
  (classifier_optional_fields []).2.1 {} rfl

/-- The scan of `scanLoop`, rephrased on the list of consecutive
revision pairs; proof intermediate between the source loop and the
first-hit characterization. -/
def pairScan (u : String) (c : ℕ) : List (Revision × Revision) → Option ThreeRevertViolation
  | [] => none
  | (a, b) :: ps =>
    if gapH a b ≤ 24 ∧ 3 ≤ (if smallDelta a b then c + 1 else c) then
      some { user := u, timestamp := b.timestamp
             revert_count := if smallDelta a b then c + 1 else c
             time_window_hours := gapH a b }
    else pairScan u (if smallDelta a b then c + 1 else c) ps

lemma pairList_cons_cons (prev r : Revision) (rs : List Revision) :
    pairList (prev :: r :: rs) = (prev, r) :: pairList (r :: rs) := rfl

lemma scanLoop_eq_pairScan (u : String) :
    ∀ (rest : List Revision) (prev : Revision) (c : ℕ),
      scanLoop u c prev rest = pairScan u c (pairList (prev :: rest)) := by
  intro rest
  induction rest with
  | nil => intro prev c; rfl
  | cons r rs ih =>
    intro prev c
    rw [pairList_cons_cons]
    simp only [scanLoop, pairScan]
    split <;> split <;> first | rfl | exact ih r _

lemma cntUpTo_zero (c : ℕ) (a b : Revision) (ps : List (Revision × Revision)) :
    cntUpTo c ((a, b) :: ps) 0 = if smallDelta a b then c + 1 else c := by
  simp only [cntUpTo, List.take_succ_cons, List.take_zero, List.countP_cons, List.countP_nil]
  by_cases d : smallDelta a b <;> simp [d]

lemma cntUpTo_succ (c : ℕ) (a b : Revision) (ps : List (Revision × Revision)) (k : ℕ) :
    cntUpTo c ((a, b) :: ps) (k + 1) = cntUpTo (if smallDelta a b then c + 1 else c) ps k := by
  simp only [cntUpTo, List.take_succ_cons, List.countP_cons]
  by_cases d : smallDelta a b <;> simp [d] <;> omega

lemma qualAt_succ (c : ℕ) (a b : Revision) (ps : List (Revision × Revision)) (k : ℕ) :
    qualAt c ((a, b) :: ps) (k + 1) = qualAt (if smallDelta a b then c + 1 else c) ps k := by
  simp only [qualAt, List.getD_cons_succ, cntUpTo_succ]

lemma violAt_succ (u : String) (c : ℕ) (a b : Revision) (ps : List (Revision × Revision)) (k : ℕ) :
    violAt u c ((a, b) :: ps) (k + 1) = violAt u (if smallDelta a b then c + 1 else c) ps k := by
  simp only [violAt, List.getD_cons_succ, cntUpTo_succ]

lemma pairScan_eq_find (u : String) :
    ∀ (ps : List (Revision × Revision)) (c : ℕ),
      pairScan u c ps = ((List.range ps.length).find? (qualAt c ps)).map (violAt u c ps) := by
  intro ps
  induction ps with
  | nil => intro c; simp [pairScan]
  | cons p ps ih =>
    rcases p with ⟨a, b⟩
    intro c
    rw [List.length_cons, List.range_succ_eq_map]
    have hqual0 : qualAt c ((a, b) :: ps) 0
        = (decide (gapH a b ≤ 24)
            && decide (3 ≤ (if smallDelta a b then c + 1 else c))) := by
      unfold qualAt
      rw [cntUpTo_zero]
      rfl
    by_cases h0 : qualAt c ((a, b) :: ps) 0 = true
    · rw [List.find?_cons_of_pos _ h0]
      have hcond : gapH a b ≤ 24 ∧ 3 ≤ (if smallDelta a b then c + 1 else c) := by
        rw [hqual0, Bool.and_eq_true, decide_eq_true_eq, decide_eq_true_eq] at h0
        exact h0
      simp only [pairScan]
      rw [if_pos hcond]
      simp only [Option.map_some']
      congr 1
      simp only [violAt, cntUpTo_zero, List.getD_cons_zero]
    · rw [List.find?_cons_of_neg _ h0, List.find?_map]
      have hfun : (qualAt c ((a, b) :: ps)) ∘ Nat.succ
          = qualAt (if smallDelta a b then c + 1 else c) ps := by
        funext k
        exact qualAt_succ c a b ps k
      rw [hfun]
      have hcond : ¬(gapH a b ≤ 24 ∧ 3 ≤ (if smallDelta a b then c + 1 else c)) := by
        intro hcon
        apply h0
        rw [hqual0, Bool.and_eq_true, decide_eq_true_eq, decide_eq_true_eq]
        exact hcon
      simp only [pairScan]
      rw [if_neg hcond, ih]
      rw [Option.map_map]
      congr 1
      funext k
      exact (violAt_succ u c a b ps k).symm

lemma scanUser_eq_spec (u : String) (l : List Revision) :
    scanUser u l = if 4 ≤ l.length then firstViolationSpec u l else none := by
  by_cases h4 : 4 ≤ l.length
  · rw [if_pos h4]
    cases l with
    | nil => simp at h4
    | cons r rest =>
      show (if 4 ≤ (r :: rest).length then scanLoop u 0 r rest else none) = _
      rw [if_pos h4, scanLoop_eq_pairScan, pairScan_eq_find]
      rfl
  · rw [if_neg h4]
    cases l with
    | nil => rfl
    | cons r rest =>
      show (if 4 ≤ (r :: rest).length then scanLoop u 0 r rest else none) = none
      rw [if_neg h4]

lemma filterMap_congr_mem {α β : Type} (f g : α → Option β) :
    ∀ l : List α, (∀ a ∈ l, f a = g a) → l.filterMap f = l.filterMap g := by
  intro l
  induction l with
  | nil => intro _; rfl
  | cons a l ih =>
    intro h
    rw [List.filterMap_cons, List.filterMap_cons, h a (List.mem_cons_self a l),
      ih fun x hx => h x (List.mem_cons_of_mem a hx)]

lemma scanLoop_user (u : String) :
    ∀ (rest : List Revision) (prev : Revision) (c : ℕ) (v : ThreeRevertViolation),
      scanLoop u c prev rest = some v → v.user = u := by
  intro rest
  induction rest with
  | nil => intro prev c v h; simp [scanLoop] at h
  | cons r rs ih =>
    intro prev c v h
    simp only [scanLoop] at h
    split at h <;> split at h <;> first | (cases h; rfl) | exact ih r _ v h

lemma scanUser_user (u : String) (l : List Revision) (v : ThreeRevertViolation)
    (h : scanUser u l = some v) : v.user = u := by
  unfold scanUser at h
  split at h
  · cases l with
    | nil => simp at h
    | cons r rest => exact scanLoop_user u rest r 0 v h
  · simp at h

lemma filterMap_keyed_unique :
    ∀ us : List String, us.Nodup →
      ∀ f : String → Option ThreeRevertViolation,
        (∀ u2 v, f u2 = some v → v.user = u2) →
        ∀ u : String, ((us.filterMap f).filter (fun v => v.user == u)).length ≤ 1 := by
  intro us
  induction us with
  | nil => intro _ f _ u; simp
  | cons a us ih =>
    intro hnd f hf u
    rcases List.nodup_cons.mp hnd with ⟨ha, hnd2⟩
    rw [List.filterMap_cons]
    cases hfa : f a with
    | none => exact ih hnd2 f hf u
    | some v =>
      have hv : v.user = a := hf a v hfa
      by_cases hau : a = u
      · subst hau
        have hvu : (v.user == a) = true := by simp [hv]
        rw [List.filter_cons, if_pos hvu, List.length_cons]
        have hrest : ((us.filterMap f).filter (fun w => w.user == a)).length = 0 := by
          rw [List.length_eq_zero, List.eq_nil_iff_forall_not_mem]
          intro w hw
          rcases List.mem_filter.mp hw with ⟨hmem, hbeq⟩
          rcases List.mem_filterMap.mp hmem with ⟨u2, hu2, hfu2⟩
          have hwu : w.user = u2 := hf u2 w hfu2
          have hu2a : u2 = a := by
            have : w.user = a := by simpa using hbeq
            rw [hwu] at this
            exact this
          exact ha (hu2a ▸ hu2)
        omega
      · have hvu : (v.user == u) = false := by simp [hv, hau]
        rw [List.filter_cons, if_neg (by simp [hvu])]
        exact ih hnd2 f hf u

lemma sortByTimestamp_sorted_eq (l : List Revision)
    (h : List.Pairwise (fun a b : Revision => a.timestamp ≤ b.timestamp) l) :
    sortByTimestamp l = l :=
  List.Sorted.insertionSort_eq h

/-- Claim C4: on a chronologically ordered history the scanner
considers only editors with at least 4 revisions; the per-editor result
is the violation of the first consecutive pair whose gap is at most 24
hours while the never-resetting small-delta counter has reached 3, with
timestamp, counter value and gap recorded from that pair; and at most
one violation is emitted per editor. -/
theorem three_revert_scan (revs : List Revision)
    (hsorted : List.Pairwise (fun a b : Revision => a.timestamp ≤ b.timestamp) revs) :
    (detect_three_revert_violations revs
      = (distinctUsers revs).filterMap (fun u =>
          if 4 ≤ (revs.filter (fun r => userOf r == u)).length then
            firstViolationSpec u (revs.filter (fun r => userOf r == u))
          else none)) ∧
    ∀ u : String,
      ((detect_three_revert_violations revs).filter (fun v => v.user == u)).length ≤ 1 := by
  constructor
  · unfold detect_three_revert_violations
    apply filterMap_congr_mem
    intro u _
    rw [sortByTimestamp_sorted_eq _ (List.Pairwise.filter _ hsorted), scanUser_eq_spec]
  · intro u
    unfold detect_three_revert_violations
    exact filterMap_keyed_unique (distinctUsers revs) (distinctUsers_nodup revs) _
      (fun u2 v h => scanUser_user u2 _ v h) u

/-- Witness for claim C4 at a concrete input: a one-revision history
yields at most one violation for editor A. -/
theorem three_revert_scan_witness :
    ((detect_three_revert_violations demoRevs).filter (fun v => v.user == "A")).length ≤ 1 :=
  (three_revert_scan demoRevs (by simp [demoRevs])).2 "A"

/-- The concrete history of claim C5: one editor, five revisions, all
consecutive size deltas 5 bytes and all gaps one hour. -/
def c5revs : List Revision :=
  [ { timestamp := 0, user := some "A", size := some 100 },
    { timestamp := 1, user := some "A", size := some 105 },
    { timestamp := 2, user := some "A", size := some 110 },
    { timestamp := 3, user := some "A", size := some 115 },
    { timestamp := 4, user := some "A", size := some 120 } ]

/-- Claim C5: on the five-revision history with size deltas of 5 bytes
and one-hour gaps, the scanner emits exactly one violation, at the
fourth revision where the running counter first reaches 3, with
revert_count 3. -/
theorem three_revert_example :
    detect_three_revert_violations c5revs
      = [{ user := "A", timestamp := 3, revert_count := 3, time_window_hours := 1 }] := by
  have h1 : c5revs.filter (fun r => userOf r == "A") = c5revs := rfl
  have h2 : distinctUsers c5revs = ["A"] := rfl
  have h3 : sortByTimestamp c5revs = c5revs := by
    apply sortByTimestamp_sorted_eq
    simp only [c5revs, List.pairwise_cons, List.mem_cons, List.not_mem_nil]
    norm_num
  unfold detect_three_revert_violations
  rw [h2, List.filterMap_cons, List.filterMap_nil, h1, h3]
  have h4 : scanUser "A" c5revs
      = some { user := "A", timestamp := 3, revert_count := 3, time_window_hours := 1 } := by
    show (if 4 ≤ c5revs.length then scanLoop "A" 0 c5revs.head! c5revs.tail else none) = _
    norm_num [c5revs, scanLoop, smallDelta, gapH]
  rw [h4]

end WikipediaStats
